import Mathlib

/-!
Verification of the fold-consistent cross-validation engine
(`src/train.py`, `src/predict.py`) against its specification.

The Python code is shallowly embedded: pandas/numpy column operations
become functions on lists, the training loop becomes a recursive
function threading the enumeration index, and raised exceptions become
`Except` errors.  Machine `int32` casts are modelled explicitly on `Int`.
-/

namespace MLCV

/-- numpy `astype('int32')`: wrap an integer into the range
`[-2^31, 2^31)` (C-style two's-complement truncation). -/
def int32cast (x : Int) : Int :=
  (x + 2 ^ 31) % 2 ^ 32 - 2 ^ 31

/-- `train.py:38`: `train_df[fold_id_column] = (split_feature_values % cfg["n_splits"]).astype('int32')`.
numpy `%` on integers is Python floored modulo, which for a positive
modulus agrees with Euclidean `Int.emod`. -/
def foldIdTrain (g : Int) (n : Nat) : Int :=
  int32cast (g % (n : Int))

/-- `predict.py:44`: `df[fold_id_column] = (df[xtrain_split_feature] % n_splits).astype('int32')` —
the inference-path fold assignment, character for character the same
computation as the training path. -/
def foldIdPredict (g : Int) (n : Nat) : Int :=
  int32cast (g % (n : Int))

/-- Fold-id column produced from the grouping-feature column
(`train.py:37-38`, applied elementwise to the pandas column). -/
def assignFolds (gs : List Int) (n : Nat) : List Int :=
  gs.map (fun g => foldIdTrain g n)

/-- `value_counts()` of the fold-id column (`train.py:41`): the number of
occurrences of each distinct fold id actually present.  pandas sorts the
counts descending; the balance statistic below is order-independent, so
we keep first-occurrence order. -/
def foldCounts (folds : List Int) : List Nat :=
  folds.dedup.map (fun v => folds.count v)

/-- `train.py:41-43`: the balance check `np.std(counts)/np.mean(counts) > 0.05`,
embedded in exact integer arithmetic.  With `k` folds and total `S`,
`std/mean > 1/20  ↔  400 * Σ (k*c - S)^2 > k * S^2` (population standard
deviation, `ddof = 0`, as numpy computes); the equivalence with the
real-valued statistic is proved below. -/
def imbalanced (counts : List Nat) : Bool :=
  let k : Int := counts.length
  let S : Int := counts.sum
  400 * (counts.map (fun c : Nat => (k * (c : Int) - S) ^ 2)).sum > k * S ^ 2

/-- Insert an integer into a (sorted) list, preserving order — helper for
the sorted distinct group values that sklearn's `np.unique` produces. -/
def insertSorted (x : Int) : List Int → List Int
  | [] => [x]
  | y :: ys => if x ≤ y then x :: y :: ys else y :: insertSorted x ys

/-- Insertion sort on integers. -/
def sortInts (l : List Int) : List Int :=
  l.foldr insertSorted []

/-- The distinct group values in ascending order, as
`sklearn.model_selection.LeaveOneGroupOut` enumerates them
(`np.unique(groups)`). -/
def sortedGroups (folds : List Int) : List Int :=
  sortInts folds.dedup

/-- Validation index set of the leave-one-group-out split for group `g`:
the positions whose fold id equals `g` (`train.py:46-47`). -/
def valIdx (folds : List Int) (g : Int) : List Nat :=
  (List.range folds.length).filter (fun i => folds.getD i 0 == g)

/-- Training index set of the leave-one-group-out split for group `g`:
all other positions (`train.py:46-47`). -/
def trainIdx (folds : List Int) (g : Int) : List Nat :=
  (List.range folds.length).filter (fun i => !(folds.getD i 0 == g))

/-- `train.py:46-47`: `LeaveOneGroupOut().split(train_df, groups=train_df[fold_id_column])` —
one `(group, train indices, validation indices)` triple per distinct
group value present, in ascending group order. -/
def planSplits (folds : List Int) : List (Int × List Nat × List Nat) :=
  (sortedGroups folds).map (fun g => (g, trainIdx folds g, valIdx folds g))

/-- `train.py:72-74`: the defensive post-condition
`validation_fold_idx = set(validation_fold_df[fold_id_column]);`
`assert len(validation_fold_idx)==1 and i_fold in validation_fold_idx`. -/
def validationFoldCheck (folds : List Int) (i_fold : Nat) (va : List Nat) : Bool :=
  let s := (va.map (fun i => folds.getD i 0)).dedup
  s.length == 1 && s.contains (i_fold : Int)

/-- A trained per-fold model, tagged with the fold it never saw during
training (the validation group of its split). -/
structure FoldModel where
  excluded_fold : Int
deriving DecidableEq, Repr

/-- Errors raised on the training path: the balance check
(`train.py:42-43`) and the per-split assertion (`train.py:74`). -/
inductive TrainError where
  | imbalancedSplit
  | internalConsistency
deriving DecidableEq, Repr

/-- The training loop body of `train.py:67-74`, threading the
`enumerate` counter `i`: each split must pass the fold-id assertion,
and a model excluding the split's validation group is collected. -/
def trainRunAux (folds : List Int) (i : Nat) :
    List (Int × List Nat × List Nat) → Except TrainError (List FoldModel)
  | [] => Except.ok []
  | (g, _, va) :: rest =>
    if validationFoldCheck folds i va then
      (trainRunAux folds (i + 1) rest).map (fun ms => ⟨g⟩ :: ms)
    else
      Except.error TrainError.internalConsistency

/-- The full training loop over the planned splits (`train.py:67-74`). -/
def trainRun (folds : List Int) : Except TrainError (List FoldModel) :=
  trainRunAux folds 0 (planSplits folds)

/-- The `n_splits > 1` training path of `train.py:35-47,67-74`: assign
fold ids, run the balance check, then train one model per planned
split. -/
def trainPipeline (gs : List Int) (n : Nat) : Except TrainError (List FoldModel) :=
  let folds := assignFolds gs n
  if imbalanced (foldCounts folds) then Except.error TrainError.imbalancedSplit
  else trainRun folds

/-- Errors raised on the inference path. -/
inductive PredictError where
  | missingModel
  | schemaMismatch
deriving DecidableEq, Repr

/-- Modelled from the spec: `predict_folds` together with `load_models`
(both in `utils/inference.py`, which is not under `src/`; `predict.py:21,47`
only calls them).  Per the spec's FoldRouter contract, the router returns
the model stored for the record's fold id — models are stored indexed by
the fold they excluded — and fails with `MissingModelError` when no model
exists for that fold id. -/
def route (ms : List FoldModel) (f : Int) : Except PredictError FoldModel :=
  if h : 0 ≤ f ∧ f.toNat < ms.length then Except.ok (ms.get ⟨f.toNat, h.2⟩)
  else Except.error PredictError.missingModel

/-- Modelled from the spec: the feature-matrix construction inside
`predict_folds` (`utils/inference.py`, not under `src/`; `predict.py:47`
passes it the `train_features` list extracted from the stored model
signature at `predict.py:26-30`).  Per the spec's PredictionAggregator
contract, the model's required feature columns are selected from the
record by name — so column order is irrelevant — and a required feature
absent from the record's columns is a `SchemaMismatchError`. -/
def selectFeatures (cols : List (String × Int)) (feats : List String) :
    Except PredictError (List Int) :=
  if feats.all (fun f => (cols.map Prod.fst).contains f) then
    Except.ok (feats.map (fun f => (cols.lookup f).getD 0))
  else
    Except.error PredictError.schemaMismatch

/-- Error raised by order restoration (`predict.py:62`: pandas raises
`KeyError` when `.loc` is given a label absent from the index). -/
inductive OrderError where
  | orderMismatch
deriving DecidableEq, Repr

/-- A record identity key: the `(evt, run)` pair (`predict.py:57,61`). -/
abbrev EventKey := Int × Int

/-- pandas label lookup on an indexed frame: all rows whose index equals
the requested key, in frame order. -/
def locLookup {V : Type} (tbl : List (EventKey × V)) (k : EventKey) :
    List (EventKey × V) :=
  tbl.filter (fun p => decide (p.1 = k))

/-- `predict.py:61-63`: `df_pred.set_index(['evt','run']); df_pred.loc[orig_index]` —
reindex the prediction table to the caller-supplied key sequence.
pandas `.loc[list]` raises `KeyError` iff some requested label is absent
from the index; otherwise it concatenates, per requested key, every row
carrying that key. -/
def restoreOrder {V : Type} (tbl : List (EventKey × V)) (canon : List EventKey) :
    Except OrderError (List (EventKey × V)) :=
  if canon.all (fun k => tbl.any (fun p => decide (p.1 = k))) then
    Except.ok (canon.flatMap (fun k => locLookup tbl k))
  else
    Except.error OrderError.orderMismatch

/-- Python floored modulo on exact rationals (`x % n` for a float-valued
column, `n > 0`): `x - n * ⌊x / n⌋`. -/
def pyMod (x : ℚ) (n : Nat) : ℚ :=
  x - n * ⌊x / (n : ℚ)⌋

/-- C-style float-to-integer conversion: truncation toward zero, as
numpy's `astype('int32')` applies to a float argument (before the 32-bit
wrap). -/
def ratTruncToZero (x : ℚ) : Int :=
  if 0 ≤ x then ⌊x⌋ else ⌈x⌉

/-- `train.py:37-38` / `predict.py:44` when the grouping column holds
numeric (possibly non-integral) values, embedded over exact rationals:
`(value % n_splits).astype('int32')` — floored modulo, then truncation
toward zero, then the 32-bit wrap.  The source contains no integrality
check and no error path. -/
def foldIdNumeric (x : ℚ) (n : Nat) : Int :=
  int32cast (ratTruncToZero (pyMod x n))

/-- Modelled from the spec (§4.1), clearly following the spec's words
rather than the source, for comparison with `foldIdNumeric`: grouping
values must be representable as integers, non-integral values are a
`DataError`, and integral values receive `fold_id = value mod n_splits`. -/
inductive DataError where
  | dataError
deriving DecidableEq, Repr

/-- Modelled from the spec (§4.1): the fold assignment the spec
describes, with an integrality check, for comparison with the source's
`foldIdNumeric`. -/
def specFoldAssign (x : ℚ) (n : Nat) : Except DataError Int :=
  if x = ((⌊x⌋ : Int) : ℚ) then Except.ok (⌊x⌋ % (n : Int))
  else Except.error DataError.dataError

/-- The 32-bit wrap is the identity on values already in range. -/
theorem int32cast_eq_self {x : Int} (h1 : -(2 ^ 31) ≤ x) (h2 : x < 2 ^ 31) :
    int32cast x = x := by
  unfold int32cast
  omega

/-- For a positive modulus the Euclidean remainder lands in `[0, n)`. -/
theorem emod_bounds (g : Int) {n : Nat} (hn : 0 < n) :
    0 ≤ g % (n : Int) ∧ g % (n : Int) < (n : Int) := by
  constructor
  · exact Int.emod_nonneg g (by omega)
  · exact Int.emod_lt_of_pos g (by exact_mod_cast hn)

/-- Python floored modulo on an integer-valued rational is the Euclidean
remainder. -/
theorem pyMod_intCast (g : Int) (n : Nat) :
    pyMod (g : ℚ) n = ((g % (n : Int) : Int) : ℚ) := by
  unfold pyMod
  rw [Rat.floor_intCast_div_natCast]
  have h := Int.ediv_add_emod g (n : Int)
  have h2 : ((n : Int) : ℚ) * ((g / (n : Int) : Int) : ℚ) + ((g % (n : Int) : Int) : ℚ) = (g : ℚ) := by
    exact_mod_cast congrArg (fun z : Int => (z : ℚ)) h
  push_cast at h2 ⊢
  linarith

/-- Truncation toward zero is the identity on integers. -/
theorem ratTrunc_intCast (z : Int) : ratTruncToZero (z : ℚ) = z := by
  unfold ratTruncToZero
  split <;> simp

/-- C3 (amended): for every grouping value and every `n_splits` with
`1 < n_splits ≤ 2^31`, the assigned fold id equals the grouping value
modulo `n_splits` on both paths (the bound is forced by the
`astype('int32')` cast, see the counterexample); and for every grouping
value and every `n_splits` whatsoever — the wrap regime included — the
training path (`train.py:38`) and the inference path (`predict.py:44`)
perform the identical computation, so the same record always receives
the same fold id in both paths (and, the embedding being a pure
function, across repeated invocations). -/
theorem foldId_mod_law :
    (∀ (g : Int) (n : Nat), 1 < n → n ≤ 2 ^ 31 →
        foldIdTrain g n = g % (n : Int) ∧ foldIdPredict g n = g % (n : Int))
  ∧ (∀ (g : Int) (n : Nat), foldIdPredict g n = foldIdTrain g n) := by
  constructor
  · intro g n h1 h2
    have hb := emod_bounds g (show 0 < n by omega)
    have hc : int32cast (g % (n : Int)) = g % (n : Int) :=
      int32cast_eq_self (by omega) (by omega)
    exact ⟨hc, hc⟩
  · intro g n
    rfl

/-- C3 (counterexample): with `n_splits = 2^31 + 1` and grouping value
`2^31`, the `astype('int32')` cast wraps the remainder `2^31` to
`-2^31`, so the assigned fold id differs from the grouping value modulo
`n_splits`. -/
theorem foldId_int32_wrap_cex :
    foldIdTrain (2 ^ 31) (2 ^ 31 + 1) ≠ (2 ^ 31 : Int) % ((2 ^ 31 + 1 : Nat) : Int)
  ∧ foldIdTrain (2 ^ 31) (2 ^ 31 + 1) = -(2 ^ 31) := by
  constructor
  · decide
  · decide

/-- Witness for `foldId_mod_law`: the mod law at `g = 7`, `n_splits = 3`,
and the cross-path identity at the wrap-regime point `g = 2^31`,
`n_splits = 2^31 + 1`. -/
theorem foldId_mod_law_witness :
    (foldIdTrain 7 3 = (7 : Int) % ((3 : Nat) : Int)
      ∧ foldIdPredict 7 3 = (7 : Int) % ((3 : Nat) : Int))
  ∧ foldIdPredict (2 ^ 31) (2 ^ 31 + 1) = foldIdTrain (2 ^ 31) (2 ^ 31 + 1) :=
  ⟨foldId_mod_law.1 7 3 (by decide) (by decide),
    foldId_mod_law.2 (2 ^ 31) (2 ^ 31 + 1)⟩

/-- C7 (amended): fold assignment never raises a `DataError` — the
source (`train.py:37-38`, `predict.py:44`) contains no integrality
check.  On integer-valued grouping columns the fold id is computed by
integer arithmetic (`value mod n_splits` for `n_splits ≤ 2^31`), while a
non-integral value such as `5/2` is silently reduced by floored modulo
and truncated: `(5/2) % 3 = 5/2`, `astype('int32')` gives fold id `2`.
(The cited value `5/2` is exactly representable in binary floating
point, and `2.5 % 3` is exact there, so the rational embedding agrees
with the float computation at this input.) -/
theorem foldId_numeric_law :
    (∀ (g : Int) (n : Nat), 1 < n → n ≤ 2 ^ 31 →
        foldIdNumeric (g : ℚ) n = g % (n : Int))
  ∧ foldIdNumeric (5 / 2) 3 = 2 := by
  constructor
  · intro g n h1 h2
    unfold foldIdNumeric
    rw [pyMod_intCast g n, ratTrunc_intCast]
    have hb := emod_bounds g (show 0 < n by omega)
    exact int32cast_eq_self (by omega) (by omega)
  · norm_num [foldIdNumeric, pyMod, ratTruncToZero, int32cast]

/-- C7 (counterexample): at the non-integral grouping value `5/2` with
`n_splits = 3`, the source computes fold id `2` without raising anything,
while the spec-modelled assignment (`specFoldAssign`, following the
spec's words) demands a `DataError`. -/
theorem foldId_no_dataError_cex :
    foldIdNumeric (5 / 2) 3 = 2
  ∧ specFoldAssign (5 / 2) 3 = Except.error DataError.dataError := by
  constructor
  · norm_num [foldIdNumeric, pyMod, ratTruncToZero, int32cast]
  · have hfl : ⌊(5 / 2 : ℚ)⌋ = 2 := by
      rw [Int.floor_eq_iff]
      constructor
      · norm_num
      · norm_num
    have hne : (5 / 2 : ℚ) ≠ ((⌊(5 / 2 : ℚ)⌋ : Int) : ℚ) := by
      rw [hfl]; norm_num
    simp [specFoldAssign, hne]

/-- Witness for `foldId_numeric_law` at `g = 7`, `n_splits = 3`. -/
theorem foldId_numeric_law_witness :
    foldIdNumeric ((7 : Int) : ℚ) 3 = (7 : Int) % ((3 : Nat) : Int) :=
  foldId_numeric_law.1 7 3 (by decide) (by decide)

/-- Casting the integer balance statistic to the reals. -/
theorem sum_sq_intCast (l : List Nat) (kI SI : Int) :
    (((l.map (fun c : Nat => (kI * (c : Int) - SI) ^ 2)).sum : Int) : ℝ)
      = (l.map (fun c : Nat => ((kI : ℝ) * (c : ℝ) - (SI : ℝ)) ^ 2)).sum := by
  induction l with
  | nil => simp
  | cons a t ih =>
    simp only [List.map_cons, List.sum_cons, Int.cast_add]
    rw [ih]
    push_cast
    ring

/-- Pulling the common denominator out of the variance sum. -/
theorem sum_sq_div (l : List Nat) (kR SR : ℝ) (hk : kR ≠ 0) :
    (l.map (fun c : Nat => ((c : ℝ) - SR / kR) ^ 2)).sum
      = (l.map (fun c : Nat => (kR * (c : ℝ) - SR) ^ 2)).sum / kR ^ 2 := by
  induction l with
  | nil => simp
  | cons a t ih =>
    simp only [List.map_cons, List.sum_cons]
    rw [ih]
    field_simp
    ring_nf

/-- Clearing denominators in the squared threshold comparison. -/
theorem threshold_sq_iff (tn sr kr : ℝ) (hk : 0 < kr) :
    ((5 / 100 * (sr / kr)) ^ 2 < tn / kr ^ 2 / kr ↔ kr * sr ^ 2 < 400 * tn) := by
  have hk0 : kr ≠ 0 := ne_of_gt hk
  rw [div_div]
  rw [show (5 / 100 * (sr / kr)) ^ 2 = sr ^ 2 / (400 * kr ^ 2) from by
    field_simp
    ring]
  rw [div_lt_div_iff₀ (by positivity) (by positivity)]
  constructor
  · intro h
    nlinarith [h, mul_pos hk hk]
  · intro h
    nlinarith [h, mul_pos hk hk]

/-- C4: with `n_splits > 1`, the training path fails with
`ImbalancedSplitError` exactly when the relative standard deviation of
the per-fold record counts — `stdev(counts)/mean(counts)` with numpy's
population standard deviation — exceeds `5%`; in particular counts
`[1000, 1000, 50]` trip the check and `[980, 1010, 1000]` pass.  The
source compares IEEE doubles; the embedding compares the same
quantities in exact arithmetic (the cited instances are far from the
threshold). -/
theorem balance_check_law (counts : List Nat) (hne : counts ≠ []) (hS : 0 < counts.sum) :
    (imbalanced counts = true ↔
      Real.sqrt ((counts.map (fun c : Nat =>
            ((c : ℝ) - (counts.sum : ℝ) / (counts.length : ℝ)) ^ 2)).sum
          / (counts.length : ℝ))
        / ((counts.sum : ℝ) / (counts.length : ℝ)) > 5 / 100)
  ∧ imbalanced [1000, 1000, 50] = true
  ∧ imbalanced [980, 1010, 1000] = false := by
  refine ⟨?_, by decide, by decide⟩
  have hkR : (0 : ℝ) < (counts.length : ℝ) := by
    have h := List.length_pos.mpr hne
    exact_mod_cast h
  have hSR : (0 : ℝ) < (counts.sum : ℝ) := by exact_mod_cast hS
  have hmean : (0 : ℝ) < (counts.sum : ℝ) / (counts.length : ℝ) := by positivity
  have hbool : imbalanced counts = true ↔
      ((counts.length : Int) * (counts.sum : Int) ^ 2
        < 400 * (counts.map (fun c : Nat =>
            ((counts.length : Int) * (c : Int) - (counts.sum : Int)) ^ 2)).sum) := by
    simp [imbalanced, gt_iff_lt]
  have hcastA :
      (((counts.map (fun c : Nat =>
          ((counts.length : Int) * (c : Int) - (counts.sum : Int)) ^ 2)).sum : Int) : ℝ)
        = (counts.map (fun c : Nat =>
            ((counts.length : ℝ) * (c : ℝ) - (counts.sum : ℝ)) ^ 2)).sum := by
    rw [sum_sq_intCast]
    simp only [Int.cast_natCast]
  rw [hbool]
  rw [gt_iff_lt, lt_div_iff₀ hmean, Real.lt_sqrt (by positivity),
    sum_sq_div counts ((counts.length : ℝ)) ((counts.sum : ℝ)) (ne_of_gt hkR),
    threshold_sq_iff _ _ _ hkR]
  constructor
  · intro h
    have h2 : (((counts.length : Int) * (counts.sum : Int) ^ 2 : Int) : ℝ)
        < ((400 * (counts.map (fun c : Nat =>
            ((counts.length : Int) * (c : Int) - (counts.sum : Int)) ^ 2)).sum : Int) : ℝ) := by
      exact_mod_cast h
    rw [Int.cast_mul, Int.cast_mul, Int.cast_pow, hcastA] at h2
    simp only [Int.cast_natCast, Int.cast_ofNat] at h2
    convert h2 using 2
  · intro h
    have h2 : (((counts.length : Int) * (counts.sum : Int) ^ 2 : Int) : ℝ)
        < ((400 * (counts.map (fun c : Nat =>
            ((counts.length : Int) * (c : Int) - (counts.sum : Int)) ^ 2)).sum : Int) : ℝ) := by
      rw [Int.cast_mul, Int.cast_mul, Int.cast_pow, hcastA]
      simp only [Int.cast_natCast, Int.cast_ofNat]
      convert h using 2
    exact_mod_cast h2


theorem insertSorted_perm (x : Int) (l : List Int) :
    (insertSorted x l).Perm (x :: l) := by
  induction l with
  | nil => exact List.Perm.refl _
  | cons y ys ih =>
    unfold insertSorted
    split
    · exact List.Perm.refl _
    · exact (ih.cons y).trans (List.Perm.swap x y ys)

theorem sortInts_perm (l : List Int) : (sortInts l).Perm l := by
  induction l with
  | nil => exact List.Perm.refl _
  | cons a t ih =>
    exact (insertSorted_perm a (sortInts t)).trans (ih.cons a)

theorem sortedGroups_perm (folds : List Int) :
    (sortedGroups folds).Perm folds.dedup :=
  sortInts_perm folds.dedup

theorem mem_sortedGroups {g : Int} {folds : List Int} :
    g ∈ sortedGroups folds ↔ g ∈ folds := by
  rw [(sortedGroups_perm folds).mem_iff, List.mem_dedup]

theorem nodup_sortedGroups (folds : List Int) : (sortedGroups folds).Nodup :=
  ((sortedGroups_perm folds).nodup_iff).mpr (List.nodup_dedup folds)

theorem mem_valIdx {i : Nat} {folds : List Int} {g : Int} :
    i ∈ valIdx folds g ↔ i < folds.length ∧ folds.getD i 0 = g := by
  simp [valIdx, List.mem_filter, List.mem_range]

theorem mem_trainIdx {i : Nat} {folds : List Int} {g : Int} :
    i ∈ trainIdx folds g ↔ i < folds.length ∧ folds.getD i 0 ≠ g := by
  simp [trainIdx, List.mem_filter, List.mem_range]

theorem planSplits_map_fst (folds : List Int) :
    (planSplits folds).map Prod.fst = sortedGroups folds := by
  simp [planSplits, List.map_map, Function.comp_def]

theorem mem_planSplits {s : Int × List Nat × List Nat} {folds : List Int} :
    s ∈ planSplits folds ↔
      ∃ g, g ∈ folds ∧ s = (g, trainIdx folds g, valIdx folds g) := by
  simp only [planSplits, List.mem_map]
  constructor
  · rintro ⟨g, hg, rfl⟩
    exact ⟨g, mem_sortedGroups.mp hg, rfl⟩
  · rintro ⟨g, hg, rfl⟩
    exact ⟨g, mem_sortedGroups.mpr hg, rfl⟩

theorem valIdx_nonempty {g : Int} {folds : List Int} (hg : g ∈ folds) :
    valIdx folds g ≠ [] := by
  obtain ⟨n, hn, hget⟩ := List.mem_iff_getElem.mp hg
  have : n ∈ valIdx folds g :=
    mem_valIdx.mpr ⟨hn, by rw [List.getD_eq_getElem folds 0 hn]; exact hget⟩
  intro hnil
  rw [hnil] at this
  exact absurd this (List.not_mem_nil n)

/-- A nodup list all of whose elements equal `a`, containing `a`, is `[a]`. -/
theorem nodup_all_eq {α : Type} {l : List α} {a : α} (hnd : l.Nodup)
    (hmem : a ∈ l) (hall : ∀ x ∈ l, x = a) : l = [a] := by
  cases l with
  | nil => cases hmem
  | cons x xs =>
    have hx : x = a := hall x (List.mem_cons_self x xs)
    have hxs : xs = [] := by
      cases xs with
      | nil => rfl
      | cons y ys =>
        have hy : y = a := hall y (by simp)
        have : x ∈ (y :: ys) := by rw [hx, ← hy]; simp
        exact absurd this (List.nodup_cons.mp hnd).1
    rw [hx, hxs]

/-- The Bool assertion of `train.py:74` holds exactly when the distinct
fold ids of the validation rows form the singleton `{i_fold}`. -/
theorem validationFoldCheck_iff (folds : List Int) (i_fold : Nat) (va : List Nat) :
    validationFoldCheck folds i_fold va = true ↔
      (va.map (fun j => folds.getD j 0)).toFinset = {(i_fold : Int)} := by
  unfold validationFoldCheck
  simp only [Bool.and_eq_true, beq_iff_eq, List.contains, List.elem_iff]
  constructor
  · rintro ⟨hlen, hmem⟩
    obtain ⟨a, ha⟩ := List.length_eq_one.mp hlen
    rw [ha] at hmem
    have haeq : a = (i_fold : Int) := (List.mem_singleton.mp hmem).symm
    ext x
    rw [List.mem_toFinset, ← List.mem_dedup, ha, haeq]
    simp
  · intro h
    have hmem : ∀ x ∈ (va.map (fun j => folds.getD j 0)).dedup, x = (i_fold : Int) := by
      intro x hx
      have : x ∈ (va.map (fun j => folds.getD j 0)).toFinset :=
        List.mem_toFinset.mpr (List.mem_dedup.mp hx)
      rw [h] at this
      simpa using this
    have hin : (i_fold : Int) ∈ (va.map (fun j => folds.getD j 0)).dedup := by
      rw [List.mem_dedup, ← List.mem_toFinset, h]
      simp
    have := nodup_all_eq (List.nodup_dedup _) hin hmem
    rw [this]
    exact ⟨rfl, by simp⟩

/-- Every split the planner yields has validation fold-id set `{its group}`. -/
theorem planSplits_val_foldIds {s : Int × List Nat × List Nat} {folds : List Int}
    (hs : s ∈ planSplits folds) :
    (s.2.2.map (fun j => folds.getD j 0)).toFinset = {s.1} := by
  obtain ⟨g, hg, rfl⟩ := mem_planSplits.mp hs
  have hall : ∀ x ∈ (valIdx folds g).map (fun j => folds.getD j 0), x = g := by
    intro x hx
    obtain ⟨j, hj, rfl⟩ := List.mem_map.mp hx
    exact (mem_valIdx.mp hj).2
  obtain ⟨j, hj⟩ := List.exists_mem_of_ne_nil _ (valIdx_nonempty hg)
  have hgin : g ∈ (valIdx folds g).map (fun j => folds.getD j 0) :=
    List.mem_map.mpr ⟨j, hj, (mem_valIdx.mp hj).2⟩
  ext x
  simp only [List.mem_toFinset, Finset.mem_singleton]
  exact ⟨fun hx => hall x hx, fun hx => hx ▸ hgin⟩

theorem except_map_error {ε α β : Type} (f : α → β) (x : Except ε α) (e : ε) :
    Except.map f x = Except.error e ↔ x = Except.error e := by
  cases x <;> simp [Except.map]

theorem except_map_ok {ε α β : Type} (f : α → β) (x : Except ε α) (b : β) :
    Except.map f x = Except.ok b ↔ ∃ a, x = Except.ok a ∧ f a = b := by
  cases x <;> simp [Except.map]

/-- The training loop aborts with the assertion error exactly when some
enumerated split fails the fold-id assertion. -/
theorem trainRunAux_error_iff (folds : List Int)
    (l : List (Int × List Nat × List Nat)) (i : Nat) :
    trainRunAux folds i l = Except.error TrainError.internalConsistency ↔
      ∃ j, j < l.length ∧
        validationFoldCheck folds (i + j) ((l.getD j (0, [], [])).2.2) = false := by
  induction l generalizing i with
  | nil => simp [trainRunAux]
  | cons hd rest ih =>
    obtain ⟨g, tr, va⟩ := hd
    by_cases hc : validationFoldCheck folds i va = true
    · simp only [trainRunAux, hc, if_true]
      rw [except_map_error, ih (i + 1)]
      constructor
      · rintro ⟨j, hj, hcheck⟩
        refine ⟨j + 1, by simp only [List.length_cons]; omega, ?_⟩
        rw [List.getD_cons_succ]
        have harith : i + (j + 1) = i + 1 + j := by omega
        rw [harith]
        exact hcheck
      · rintro ⟨j, hj, hcheck⟩
        cases j with
        | zero =>
          rw [List.getD_cons_zero, Nat.add_zero] at hcheck
          rw [hc] at hcheck
          cases hcheck
        | succ j' =>
          refine ⟨j', by simp only [List.length_cons] at hj; omega, ?_⟩
          rw [List.getD_cons_succ] at hcheck
          have harith : i + 1 + j' = i + (j' + 1) := by omega
          rw [harith]
          exact hcheck
    · have hc' : validationFoldCheck folds i va = false := by
        cases hb : validationFoldCheck folds i va
        · rfl
        · exact absurd hb hc
      simp only [trainRunAux, hc', if_false, Bool.false_eq_true]
      constructor
      · intro _
        exact ⟨0, by simp only [List.length_cons]; omega,
          by rw [List.getD_cons_zero, Nat.add_zero]; exact hc'⟩
      · intro _
        trivial

/-- When the training loop succeeds, it yields one model per split, the
`j`-th model excluding the `j`-th split's group, with every enumerated
assertion having passed. -/
theorem trainRunAux_ok_spec (folds : List Int) :
    ∀ (l : List (Int × List Nat × List Nat)) (i : Nat) (ms : List FoldModel),
      trainRunAux folds i l = Except.ok ms →
      ms.length = l.length ∧
      ∀ j, j < l.length →
        ms.getD j ⟨0⟩ = ⟨(l.getD j (0, [], [])).1⟩ ∧
        validationFoldCheck folds (i + j) ((l.getD j (0, [], [])).2.2) = true := by
  intro l
  induction l with
  | nil =>
    intro i ms h
    simp only [trainRunAux] at h
    obtain rfl : ([] : List FoldModel) = ms := by
      cases h
      rfl
    exact ⟨rfl, by intro j hj; simp at hj⟩
  | cons hd rest ih =>
    obtain ⟨g, tr, va⟩ := hd
    intro i ms h
    by_cases hc : validationFoldCheck folds i va = true
    · simp only [trainRunAux, hc, if_true] at h
      rw [except_map_ok] at h
      obtain ⟨ms', hok, rfl⟩ := h
      obtain ⟨hlen, hspec⟩ := ih (i + 1) ms' hok
      refine ⟨by simp [hlen], ?_⟩
      intro j hj
      cases j with
      | zero =>
        refine ⟨by simp, ?_⟩
        rw [List.getD_cons_zero, Nat.add_zero]
        exact hc
      | succ j' =>
        have hj' : j' < rest.length := by simpa using hj
        obtain ⟨hget, hcheck⟩ := hspec j' hj'
        refine ⟨by simpa using hget, ?_⟩
        rw [List.getD_cons_succ]
        have harith : i + (j' + 1) = i + 1 + j' := by omega
        rw [harith]
        exact hcheck
    · have hc' : validationFoldCheck folds i va = false := by
        cases hb : validationFoldCheck folds i va
        · rfl
        · exact absurd hb hc
      simp [trainRunAux, hc'] at h

/-- In a successful training run the `j`-th stored model excluded
exactly fold `j`: the split's group must equal the enumeration index,
or the `train.py:74` assertion would have fired. -/
theorem trainRun_ok_excluded {folds : List Int} {ms : List FoldModel}
    (h : trainRun folds = Except.ok ms) :
    ∀ j, j < ms.length → (ms.getD j ⟨0⟩).excluded_fold = (j : Int) := by
  obtain ⟨hlen, hspec⟩ := trainRunAux_ok_spec folds (planSplits folds) 0 ms h
  intro j hj
  have hjl : j < (planSplits folds).length := by rw [← hlen]; exact hj
  obtain ⟨hget, hcheck⟩ := hspec j hjl
  rw [Nat.zero_add] at hcheck
  have hlen2 : (planSplits folds).length = (sortedGroups folds).length := by
    simp [planSplits]
  have hj2 : j < (sortedGroups folds).length := by rw [← hlen2]; exact hjl
  have hsplit : (planSplits folds).getD j (0, [], []) =
      ((sortedGroups folds).get ⟨j, hj2⟩,
        trainIdx folds ((sortedGroups folds).get ⟨j, hj2⟩),
        valIdx folds ((sortedGroups folds).get ⟨j, hj2⟩)) := by
    rw [List.getD_eq_getElem _ _ hjl]
    simp [planSplits, List.getElem_map, List.get_eq_getElem]
  set g := (sortedGroups folds).get ⟨j, hj2⟩ with hgdef
  have hgmem : g ∈ folds := mem_sortedGroups.mp (List.get_mem _ _ hj2)
  rw [hsplit] at hget hcheck
  have hfin := (validationFoldCheck_iff folds j (valIdx folds g)).mp hcheck
  have hsmem : (g, trainIdx folds g, valIdx folds g) ∈ planSplits folds :=
    mem_planSplits.mpr ⟨g, hgmem, rfl⟩
  have hfin2 := planSplits_val_foldIds hsmem
  simp only at hfin2
  rw [hfin] at hfin2
  have hgj : (j : Int) = g := Finset.singleton_inj.mp hfin2
  rw [hget]
  exact hgj.symm
/-- `restoreOrder` raises pandas' `KeyError` exactly when some requested
key is absent from the table. -/
theorem restoreOrder_error_iff {V : Type} (tbl : List (EventKey × V)) (canon : List EventKey) :
    restoreOrder tbl canon = Except.error OrderError.orderMismatch ↔
      ∃ k ∈ canon, k ∉ tbl.map Prod.fst := by
  unfold restoreOrder
  split
  · rename_i hall
    constructor
    · intro h
      cases h
    · rintro ⟨k, hk, hnotin⟩
      exfalso
      rw [List.all_eq_true] at hall
      have hx := hall k hk
      rw [List.any_eq_true] at hx
      obtain ⟨p, hp, hpk⟩ := hx
      rw [decide_eq_true_eq] at hpk
      exact hnotin (List.mem_map.mpr ⟨p, hp, hpk⟩)
  · rename_i hall
    constructor
    · intro _
      simp only [List.all_eq_true, List.any_eq_true, decide_eq_true_eq, not_forall] at hall
      push_neg at hall
      obtain ⟨k, hk, hnone⟩ := hall
      refine ⟨k, hk, fun hmem => ?_⟩
      obtain ⟨p, hp, hpk⟩ := List.mem_map.mp hmem
      exact hnone p hp hpk
    · intro _
      rfl

/-- On a table with unique keys, label lookup of a present key returns
exactly its one row. -/
theorem locLookup_singleton {V : Type} {tbl : List (EventKey × V)} {k : EventKey}
    (hnd : (tbl.map Prod.fst).Nodup) (hk : k ∈ tbl.map Prod.fst) :
    ∃ v, locLookup tbl k = [(k, v)] ∧ (k, v) ∈ tbl := by
  induction tbl with
  | nil => simp at hk
  | cons p rest ih =>
    rw [List.map_cons, List.nodup_cons] at hnd
    obtain ⟨hp1, hndrest⟩ := hnd
    rw [List.map_cons, List.mem_cons] at hk
    by_cases hpk : p.1 = k
    · refine ⟨p.2, ?_, by rw [show (k, p.2) = p from by rw [← hpk]]; simp⟩
      unfold locLookup
      rw [List.filter_cons, if_pos (by simp [hpk])]
      have hrest : rest.filter (fun q => decide (q.1 = k)) = [] := by
        rw [List.filter_eq_nil_iff]
        intro q hq
        simp only [decide_eq_true_eq]
        intro hqk
        exact hp1 (List.mem_map.mpr ⟨q, hq, by rw [hqk, hpk]⟩)
      rw [hrest]
      rw [show (k, p.2) = p from by rw [← hpk]]
    · have hk' : k ∈ rest.map Prod.fst := by
        rcases hk with h | h
        · exact absurd h.symm hpk
        · exact h
      obtain ⟨v, hveq, hvmem⟩ := ih hndrest hk'
      refine ⟨v, ?_, by simp [hvmem]⟩
      unfold locLookup at hveq ⊢
      rw [List.filter_cons, if_neg (by simp [hpk])]
      exact hveq

/-- Keys of the concatenated lookups are exactly the requested sequence
(unique-key table, all keys present). -/
theorem flatMap_locLookup_keys {V : Type} (tbl : List (EventKey × V))
    (hnd : (tbl.map Prod.fst).Nodup) :
    ∀ canon : List EventKey, (∀ k ∈ canon, k ∈ tbl.map Prod.fst) →
      ((canon.flatMap (fun k => locLookup tbl k)).map Prod.fst = canon) := by
  intro canon
  induction canon with
  | nil => intro _; simp
  | cons k ks ihc =>
    intro hall
    obtain ⟨v, hveq, _⟩ := locLookup_singleton hnd (hall k (by simp))
    rw [List.flatMap_cons, hveq, List.map_append]
    rw [ihc (fun x hx => hall x (by simp [hx]))]
    simp

/-- Rows of the concatenated lookups come from the table. -/
theorem flatMap_locLookup_mem {V : Type} (tbl : List (EventKey × V))
    (canon : List EventKey) :
    ∀ p ∈ canon.flatMap (fun k => locLookup tbl k), p ∈ tbl := by
  intro p hp
  obtain ⟨k, _, hpk⟩ := List.mem_flatMap.mp hp
  exact (List.mem_filter.mp hpk).1

/-- A successful `restoreOrder` on a unique-key table returns rows of
the table, keyed exactly by the requested sequence. -/
theorem restoreOrder_ok_keys {V : Type} {tbl : List (EventKey × V)} {canon : List EventKey}
    {res : List (EventKey × V)} (hnd : (tbl.map Prod.fst).Nodup)
    (hok : restoreOrder tbl canon = Except.ok res) :
    res.map Prod.fst = canon ∧ ∀ p ∈ res, p ∈ tbl := by
  unfold restoreOrder at hok
  split at hok
  · rename_i hall
    have hres : canon.flatMap (fun k => locLookup tbl k) = res := by
      cases hok
      rfl
    subst hres
    rw [List.all_eq_true] at hall
    have hall' : ∀ k ∈ canon, k ∈ tbl.map Prod.fst := by
      intro k hk
      have hx := hall k hk
      rw [List.any_eq_true] at hx
      obtain ⟨p, hp, hpk⟩ := hx
      rw [decide_eq_true_eq] at hpk
      exact List.mem_map.mpr ⟨p, hp, hpk⟩
    exact ⟨flatMap_locLookup_keys tbl hnd canon hall', flatMap_locLookup_mem tbl canon⟩
  · cases hok

/-- C6: for every prediction table with unique keys and every canonical
key order that is a permutation of the table's keys, order restoration
returns the table's rows reindexed in exactly that key order (same
multiset of rows, keys in canonical sequence); on the spec's concrete
instance the exact output is computed, and a canonical order containing
the absent key `(4,10)` is an `OrderMismatchError`. -/
theorem orderRestorer_roundtrip_law :
    (∀ (V : Type) (tbl : List (EventKey × V)) (canon : List EventKey)
        (res : List (EventKey × V)),
        (tbl.map Prod.fst).Nodup → canon.Perm (tbl.map Prod.fst) →
        restoreOrder tbl canon = Except.ok res →
        res.map Prod.fst = canon ∧ res.Perm tbl)
  ∧ restoreOrder [((1, 10), 11), ((2, 10), 22), ((3, 10), 33)] [(3, 10), (1, 10), (2, 10)]
      = Except.ok [((3, 10), 33), ((1, 10), 11), ((2, 10), 22)]
  ∧ restoreOrder [((1, 10), 11), ((2, 10), 22), ((3, 10), 33)] [(4, 10), (1, 10), (2, 10)]
      = Except.error OrderError.orderMismatch := by
  refine ⟨?_, rfl, rfl⟩
  intro V tbl canon res hnd hperm hok
  obtain ⟨hkeys, hsub⟩ := restoreOrder_ok_keys hnd hok
  refine ⟨hkeys, ?_⟩
  have hresnd : res.Nodup := by
    have h1 : (res.map Prod.fst).Nodup := by
      rw [hkeys]
      exact hperm.nodup_iff.mpr hnd
    exact h1.of_map
  have hsubperm : res.Subperm tbl := hresnd.subperm (fun p hp => hsub p hp)
  refine hsubperm.perm_of_length_le ?_
  have hlen1 : res.length = canon.length := by
    rw [← hkeys, List.length_map]
  have hlen2 : canon.length = tbl.length := by
    rw [hperm.length_eq, List.length_map]
  omega

/-- Witness for `orderRestorer_roundtrip_law` at the spec's concrete
table and permutation. -/
theorem orderRestorer_roundtrip_law_witness :
    ([((3, 10), 33), ((1, 10), 11), ((2, 10), 22)] : List (EventKey × Nat)).map Prod.fst
        = [(3, 10), (1, 10), (2, 10)]
  ∧ ([((3, 10), 33), ((1, 10), 11), ((2, 10), 22)] : List (EventKey × Nat)).Perm
        [((1, 10), 11), ((2, 10), 22), ((3, 10), 33)] :=
  orderRestorer_roundtrip_law.1 Nat
    [((1, 10), 11), ((2, 10), 22), ((3, 10), 33)]
    [(3, 10), (1, 10), (2, 10)]
    [((3, 10), 33), ((1, 10), 11), ((2, 10), 22)]
    (by decide) (by decide) rfl

/-- C5 (counterexample): a canonical order covering only two of the
table's three keys is accepted — the row keyed `(3,10)` is silently
dropped instead of raising `OrderMismatchError`, refuting the claim for
extra keys on the prediction-table side. -/
theorem orderRestorer_partial_overlap_cex :
    restoreOrder [((1, 10), 11), ((2, 10), 22), ((3, 10), 33)] [(1, 10), (2, 10)]
      = Except.ok [((1, 10), 11), ((2, 10), 22)] := rfl

/-- C5 (amended): order restoration fails with `OrderMismatchError`
exactly when the canonical order contains a key absent from the
prediction table; keys of the table absent from the canonical order are
silently dropped and repeated canonical keys silently duplicate rows —
on a unique-key table the output keys always equal the canonical
sequence, whatever rows that discards. -/
theorem orderRestorer_error_law :
    (∀ (V : Type) (tbl : List (EventKey × V)) (canon : List EventKey),
        (restoreOrder tbl canon = Except.error OrderError.orderMismatch ↔
          ∃ k ∈ canon, k ∉ tbl.map Prod.fst))
  ∧ (∀ (V : Type) (tbl : List (EventKey × V)) (canon : List EventKey)
        (res : List (EventKey × V)),
        (tbl.map Prod.fst).Nodup → restoreOrder tbl canon = Except.ok res →
        res.map Prod.fst = canon) :=
  ⟨fun _ tbl canon => restoreOrder_error_iff tbl canon,
    fun _ _ _ _ hnd hok => (restoreOrder_ok_keys hnd hok).1⟩

/-- Witness for `orderRestorer_error_law`: the two-key canonical order
against the three-key table keeps exactly the requested keys. -/
theorem orderRestorer_error_law_witness :
    ([((1, 10), 11), ((2, 10), 22)] : List (EventKey × Nat)).map Prod.fst
      = [(1, 10), (2, 10)] :=
  orderRestorer_error_law.2 Nat
    [((1, 10), 11), ((2, 10), 22), ((3, 10), 33)]
    [(1, 10), (2, 10)]
    [((1, 10), 11), ((2, 10), 22)]
    (by decide) rfl

/-- Lookup by key is invariant under permutation of a unique-key
column list. -/
theorem lookup_perm :
    ∀ {l₁ l₂ : List (String × Int)}, l₁.Perm l₂ → (l₁.map Prod.fst).Nodup →
      ∀ f : String, l₁.lookup f = l₂.lookup f := by
  intro l₁ l₂ hp
  induction hp with
  | nil =>
    intro _ f
    rfl
  | cons x p ih =>
    intro hnd f
    obtain ⟨x1, x2⟩ := x
    rw [List.lookup_cons, List.lookup_cons]
    cases hbeq : f == x1
    · simp only
      exact ih (List.nodup_cons.mp (by simpa using hnd)).2 f
    · simp only
  | swap x y l =>
    intro hnd f
    obtain ⟨x1, x2⟩ := x
    obtain ⟨y1, y2⟩ := y
    have hxy : y1 ≠ x1 := by
      simp only [List.map_cons, List.nodup_cons, List.mem_cons] at hnd
      exact fun h => hnd.1 (Or.inl h)
    rw [List.lookup_cons, List.lookup_cons, List.lookup_cons, List.lookup_cons]
    cases hbx : f == x1 <;> cases hby : f == y1 <;> simp only
    exfalso
    exact hxy ((eq_of_beq hby).symm.trans (eq_of_beq hbx))
  | trans p1 p2 ih1 ih2 =>
    intro hnd f
    rw [ih1 hnd f, ih2 ((p1.map Prod.fst).nodup_iff.mp hnd) f]

/-- Key membership is invariant under permutation. -/
theorem contains_perm {l₁ l₂ : List (String × Int)} (hp : l₁.Perm l₂) (f : String) :
    (l₁.map Prod.fst).contains f = (l₂.map Prod.fst).contains f := by
  rw [Bool.eq_iff_iff]
  simp only [List.contains, List.elem_iff]
  exact (hp.map Prod.fst).mem_iff

/-- C9: prediction aggregation (spec-modelled `predict_folds`, see
`selectFeatures`) tolerates trivial column reordering of the input —
features are selected by name, so any permutation of a unique-name
column list yields the identical result — and fails with
`SchemaMismatchError` exactly when some feature required by the model's
trained feature set is absent from the input's columns. -/
theorem schema_mismatch_law :
    (∀ (cols cols2 : List (String × Int)) (feats : List String),
        cols.Perm cols2 → (cols.map Prod.fst).Nodup →
        selectFeatures cols feats = selectFeatures cols2 feats)
  ∧ (∀ (cols : List (String × Int)) (feats : List String),
        selectFeatures cols feats = Except.error PredictError.schemaMismatch ↔
          ∃ f ∈ feats, f ∉ cols.map Prod.fst) := by
  constructor
  · intro cols cols2 feats hp hnd
    have hcf : (fun f => (cols.map Prod.fst).contains f)
        = (fun f => (cols2.map Prod.fst).contains f) :=
      funext fun f => contains_perm hp f
    have hguard : (feats.all (fun f => (cols.map Prod.fst).contains f))
        = (feats.all (fun f => (cols2.map Prod.fst).contains f)) := by
      rw [hcf]
    have hfun : (fun f => ((cols.lookup f).getD 0)) = (fun f => ((cols2.lookup f).getD 0)) :=
      funext fun f => by rw [lookup_perm hp hnd f]
    unfold selectFeatures
    rw [hguard, hfun]
  · intro cols feats
    unfold selectFeatures
    split
    · rename_i hall
      constructor
      · intro h
        cases h
      · rintro ⟨f, hf, hnotin⟩
        exfalso
        rw [List.all_eq_true] at hall
        have hx := hall f hf
        simp only [List.contains, List.elem_iff] at hx
        exact hnotin hx
    · rename_i hall
      constructor
      · intro _
        simp only [List.all_eq_true, List.contains, List.elem_iff, not_forall] at hall
        obtain ⟨f, hf, hn⟩ := hall
        exact ⟨f, hf, hn⟩
      · intro _
        rfl

/-- Witness for `schema_mismatch_law`: reordering the two input columns
leaves feature selection unchanged. -/
theorem schema_mismatch_law_witness :
    selectFeatures [("a", 5), ("b", 7)] ["b"]
      = selectFeatures [("b", 7), ("a", 5)] ["b"] :=
  schema_mismatch_law.1 [("a", 5), ("b", 7)] [("b", 7), ("a", 5)] ["b"]
    (by decide) (by decide)

/-- Witness for `balance_check_law` at counts `[2, 2]`. -/
theorem balance_check_law_witness :
    (([2, 2] : List Nat) ≠ [])
  ∧ ((imbalanced [2, 2] = true ↔
      Real.sqrt ((([2, 2] : List Nat).map (fun c : Nat =>
            ((c : ℝ) - (([2, 2] : List Nat).sum : ℝ) / (([2, 2] : List Nat).length : ℝ)) ^ 2)).sum
          / (([2, 2] : List Nat).length : ℝ))
        / ((([2, 2] : List Nat).sum : ℝ) / (([2, 2] : List Nat).length : ℝ)) > 5 / 100)
    ∧ imbalanced [1000, 1000, 50] = true ∧ imbalanced [980, 1010, 1000] = false) :=
  ⟨by decide, balance_check_law [2, 2] (by decide) (by decide)⟩

/-- C1: for every record and every trained ensemble, routing returns
the model whose excluded fold equals the record's fold id — the model
that never saw the record during training — and fails with
`MissingModelError` exactly when no model of the ensemble excluded that
fold id.  The ensemble is any successful output of the embedded
training path; the router is modelled from the spec (`predict_folds` /
`load_models` live in `utils/inference.py`, outside `src/`). -/
theorem foldRouter_law (gs : List Int) (n : Nat) (ms : List FoldModel)
    (htr : trainPipeline gs n = Except.ok ms) (f : Int) :
    (∀ m, route ms f = Except.ok m → m.excluded_fold = f)
  ∧ (route ms f = Except.error PredictError.missingModel ↔
      ∀ m ∈ ms, m.excluded_fold ≠ f) := by
  have htr' : trainRun (assignFolds gs n) = Except.ok ms := by
    unfold trainPipeline at htr
    by_cases hb : imbalanced (foldCounts (assignFolds gs n)) = true
    · rw [if_pos hb] at htr
      cases htr
    · rw [if_neg hb] at htr
      exact htr
  have hexcl := trainRun_ok_excluded htr'
  constructor
  · intro m hm
    unfold route at hm
    split at hm
    · rename_i h
      have hmm : ms.get ⟨f.toNat, h.2⟩ = m := by
        cases hm
        rfl
      have hgd : ms.getD f.toNat ⟨0⟩ = m := by
        rw [List.getD_eq_getElem _ _ h.2, ← hmm, List.get_eq_getElem]
      have := hexcl f.toNat h.2
      rw [hgd] at this
      rw [this]
      exact Int.toNat_of_nonneg h.1
    · cases hm
  · constructor
    · intro herr m hmem hfeq
      unfold route at herr
      split at herr
      · cases herr
      · rename_i h
        push_neg at h
        obtain ⟨idx, hidx, hgetm⟩ := List.mem_iff_getElem.mp hmem
        have hgd : ms.getD idx ⟨0⟩ = m := by
          rw [List.getD_eq_getElem _ _ hidx, hgetm]
        have hx := hexcl idx hidx
        rw [hgd, hfeq] at hx
        have hf0 : 0 ≤ f := by omega
        have : f.toNat = idx := by omega
        omega
    · intro hall
      unfold route
      split
      · rename_i h
        exfalso
        have hmem : ms.get ⟨f.toNat, h.2⟩ ∈ ms := List.get_mem _ _ h.2
        have hx := hexcl f.toNat h.2
        have hgd : ms.getD f.toNat ⟨0⟩ = ms.get ⟨f.toNat, h.2⟩ := by
          rw [List.getD_eq_getElem _ _ h.2, List.get_eq_getElem]
        rw [hgd] at hx
        exact hall _ hmem (by rw [hx]; exact Int.toNat_of_nonneg h.1)
      · rfl

/-- Witness for `foldRouter_law`: grouping values `[0,1,2,0,1,2]`,
`n_splits = 3`, record fold id `1`. -/
theorem foldRouter_law_witness :
    (∀ m, route [⟨0⟩, ⟨1⟩, ⟨2⟩] 1 = Except.ok m → m.excluded_fold = 1)
  ∧ (route [⟨0⟩, ⟨1⟩, ⟨2⟩] 1 = Except.error PredictError.missingModel ↔
      ∀ m ∈ [(⟨0⟩ : FoldModel), ⟨1⟩, ⟨2⟩], m.excluded_fold ≠ 1) :=
  foldRouter_law [0, 1, 2, 0, 1, 2] 3 [⟨0⟩, ⟨1⟩, ⟨2⟩] rfl 1

/-- C2 (amended): for every record set with assigned fold ids, the
planner yields exactly one split per fold value actually present (not
per value of `[0, n_splits)` — see the counterexample): each split's
validation set is exactly the positions carrying its fold value and its
training set is all other positions; validation sets of distinct splits
are disjoint, and their union is the full record set. -/
theorem splitPlanner_partition_law (folds : List Int) :
    ((planSplits folds).map Prod.fst).Nodup
  ∧ (∀ f : Int, (∃ s ∈ planSplits folds, s.1 = f) ↔ f ∈ folds)
  ∧ (∀ s ∈ planSplits folds, ∀ i : Nat,
      (i ∈ s.2.2 ↔ i < folds.length ∧ folds.getD i 0 = s.1)
    ∧ (i ∈ s.2.1 ↔ i < folds.length ∧ folds.getD i 0 ≠ s.1))
  ∧ (∀ s ∈ planSplits folds, ∀ t ∈ planSplits folds, s.1 ≠ t.1 →
      ∀ i : Nat, i ∈ s.2.2 → i ∉ t.2.2)
  ∧ (∀ i : Nat, i < folds.length ↔ ∃ s ∈ planSplits folds, i ∈ s.2.2) := by
  refine ⟨?_, ?_, ?_, ?_, ?_⟩
  · rw [planSplits_map_fst]
    exact nodup_sortedGroups folds
  · intro f
    constructor
    · rintro ⟨s, hs, rfl⟩
      obtain ⟨g, hg, rfl⟩ := mem_planSplits.mp hs
      exact hg
    · intro hf
      exact ⟨(f, trainIdx folds f, valIdx folds f), mem_planSplits.mpr ⟨f, hf, rfl⟩, rfl⟩
  · intro s hs i
    obtain ⟨g, hg, rfl⟩ := mem_planSplits.mp hs
    exact ⟨mem_valIdx, mem_trainIdx⟩
  · intro s hs t ht hne i his hit
    obtain ⟨g, hg, rfl⟩ := mem_planSplits.mp hs
    obtain ⟨g', hg', rfl⟩ := mem_planSplits.mp ht
    exact hne (((mem_valIdx.mp his).2.symm.trans (mem_valIdx.mp hit).2))
  · intro i
    constructor
    · intro hi
      refine ⟨(folds.getD i 0, trainIdx folds (folds.getD i 0), valIdx folds (folds.getD i 0)),
        mem_planSplits.mpr ⟨folds.getD i 0, ?_, rfl⟩, mem_valIdx.mpr ⟨hi, rfl⟩⟩
      rw [List.getD_eq_getElem folds 0 hi]
      exact List.getElem_mem hi
    · rintro ⟨s, hs, his⟩
      obtain ⟨g, hg, rfl⟩ := mem_planSplits.mp hs
      exact (mem_valIdx.mp his).1

/-- Witness for `splitPlanner_partition_law` at fold ids `[0,1,0,1]`. -/
theorem splitPlanner_partition_law_witness :
    ((planSplits [0, 1, 0, 1]).map Prod.fst).Nodup
  ∧ ((0 : Nat) < ([0, 1, 0, 1] : List Int).length ↔
      ∃ s ∈ planSplits [0, 1, 0, 1], 0 ∈ s.2.2) :=
  ⟨(splitPlanner_partition_law [0, 1, 0, 1]).1,
    (splitPlanner_partition_law [0, 1, 0, 1]).2.2.2.2 0⟩

/-- C2 (counterexample): grouping values `[0, 1]` with `n_splits = 3`
leave residue class `2` empty, so the planner yields only two splits —
none whose fold value is `2` — refuting "one split per fold value `f`
in `[0, n_splits)`". -/
theorem splitPlanner_missing_fold_cex :
    assignFolds [0, 1] 3 = [0, 1]
  ∧ (planSplits (assignFolds [0, 1] 3)).map Prod.fst = [0, 1]
  ∧ (2 : Int) ∉ (planSplits (assignFolds [0, 1] 3)).map Prod.fst
  ∧ (planSplits (assignFolds [0, 1] 3)).length = 2 := by
  refine ⟨by decide, by decide, by decide, by decide⟩

/-- C8: the `train.py:72-74` assertion passes exactly when the distinct
fold ids of the split's validation rows form the singleton of the
split's enumeration index; every planner-produced split's validation
fold-id set is the singleton of its group value; and the training run
aborts with the consistency error exactly when some enumerated split
fails the assertion — the check never passes on misaligned input. -/
theorem split_postcondition_law (folds : List Int) :
    (∀ (i_fold : Nat) (va : List Nat),
        validationFoldCheck folds i_fold va = true ↔
          (va.map (fun j => folds.getD j 0)).toFinset = {(i_fold : Int)})
  ∧ (∀ s ∈ planSplits folds,
        (s.2.2.map (fun j => folds.getD j 0)).toFinset = {s.1})
  ∧ (trainRun folds = Except.error TrainError.internalConsistency ↔
        ∃ j, j < (planSplits folds).length ∧
          validationFoldCheck folds j (((planSplits folds).getD j (0, [], [])).2.2) = false) := by
  refine ⟨validationFoldCheck_iff folds, fun s hs => planSplits_val_foldIds hs, ?_⟩
  rw [trainRun, trainRunAux_error_iff]
  simp only [Nat.zero_add]

/-- Witness for `split_postcondition_law` at fold ids `[0,1,0,1]`,
enumeration index `0`, validation rows `[0,2]`. -/
theorem split_postcondition_law_witness :
    validationFoldCheck [0, 1, 0, 1] 0 [0, 2] = true ↔
      (([0, 2] : List Nat).map (fun j => ([0, 1, 0, 1] : List Int).getD j 0)).toFinset
        = {((0 : Nat) : Int)} :=
  (split_postcondition_law [0, 1, 0, 1]).1 0 [0, 2]

/-- C10: grouping values `[0,1,0,1]` with `n_splits = 3` leave residue
class `2` empty while the two nonempty folds have equal counts `[2,2]`;
the balance check passes (empty folds never appear in `value_counts`),
every loop assertion passes, and training completes with two models —
strictly fewer than `n_splits` — without raising any error. -/
theorem empty_fold_reduced_ensemble :
    assignFolds [0, 1, 0, 1] 3 = [0, 1, 0, 1]
  ∧ (2 : Int) ∉ assignFolds [0, 1, 0, 1] 3
  ∧ foldCounts (assignFolds [0, 1, 0, 1] 3) = [2, 2]
  ∧ imbalanced (foldCounts (assignFolds [0, 1, 0, 1] 3)) = false
  ∧ trainPipeline [0, 1, 0, 1] 3 = Except.ok [⟨0⟩, ⟨1⟩]
  ∧ ([(⟨0⟩ : FoldModel), ⟨1⟩]).length < 3 := by
  refine ⟨by decide, by decide, by decide, by decide, rfl, by decide⟩

end MLCV

example : MLCV.selectFeatures [("a", 5), ("b", 7)] ["b", "a"] = Except.ok [7, 5] := rfl
example : MLCV.selectFeatures [("a", 5), ("b", 7)] ["b", "c"] =
    Except.error MLCV.PredictError.schemaMismatch := rfl
example : MLCV.restoreOrder [((1, 10), 11), ((2, 10), 22), ((3, 10), 33)]
    [(3, 10), (1, 10), (2, 10)] = Except.ok [((3, 10), 33), ((1, 10), 11), ((2, 10), 22)] := rfl
example : MLCV.restoreOrder [((1, 10), 11), ((2, 10), 22), ((3, 10), 33)]
    [(4, 10), (1, 10), (2, 10)] = Except.error MLCV.OrderError.orderMismatch := rfl
example : MLCV.restoreOrder [((1, 10), 11), ((2, 10), 22), ((3, 10), 33)]
    [(1, 10), (2, 10)] = Except.ok [((1, 10), 11), ((2, 10), 22)] := rfl
example : MLCV.foldIdNumeric (5 / 2) 3 = 2 := by norm_num [MLCV.foldIdNumeric, MLCV.pyMod, MLCV.ratTruncToZero, MLCV.int32cast]

example : MLCV.planSplits [0, 1, 0, 1] = [(0, [1, 3], [0, 2]), (1, [0, 2], [1, 3])] := by decide
example : MLCV.trainRun [0, 1, 0, 1] = Except.ok [⟨0⟩, ⟨1⟩] := rfl
example : MLCV.trainRun [0, 2, 0, 2] = Except.error MLCV.TrainError.internalConsistency := rfl
example : MLCV.trainPipeline [0, 1, 0, 1] 3 = Except.ok [⟨0⟩, ⟨1⟩] := rfl
example : MLCV.route [⟨0⟩, ⟨1⟩] 1 = Except.ok ⟨1⟩ := rfl
example : MLCV.route [⟨0⟩, ⟨1⟩] 2 = Except.error MLCV.PredictError.missingModel := rfl

example : MLCV.foldIdTrain 7 3 = 1 := by decide
example : MLCV.foldIdTrain (-7) 3 = 2 := by decide
example : MLCV.imbalanced [1000, 1000, 50] = true := by decide
example : MLCV.imbalanced [980, 1010, 1000] = false := by decide
example : MLCV.foldCounts [0, 1, 0, 1] = [2, 2] := by decide
